import Mathlib

/-!
Verification of `h2o-py/h2o/group_by.py` (class `GroupBy`), a client-side
builder for group-by aggregation requests.

The Python class holds four members set in `__init__`:
  `_fr` (the source H2OFrame), `_by` (resolved grouping column indices),
  `_aggs` (a dict from `"{op}_{colname}"` keys to `[op, cidx, na]` triples),
  `_res` (the cached result frame, `None` until `get_frame` runs).

Python values that can dynamically be `None` / `str` / `int` / `list` are
embedded as inductive types;`dict` is embedded as an insertion-ordered
association list with CPython semantics (assignment to an existing key
replaces the value in place, a new key is appended at the end); raising
an exception is embedded by returning the state at the time of the raise
together with the error.
-/

/-- Modelled from the spec: the remote frame handle abstraction
(`H2OFrame` lives outside the provided source).  A frame exposes its
column names (`names`), per-column types (`types`, carried only to show
the builder never consults them) and `ncol`, the number of columns. -/
structure Frame where
  names : List String
  types : List String
deriving Repr, DecidableEq

/-- `fr.ncol` — the number of columns of the frame. -/
def Frame.ncol (fr : Frame) : Nat := fr.names.length

/-- The dynamic type of the `col` argument of an aggregation method:
`none`, a `str`, an `int`, a `list` or `tuple` (whose elements are again
arbitrary such values), or any other Python value (`other`). -/
inductive ColArg where
  | none : ColArg
  | str (s : String) : ColArg
  | int (i : Int) : ColArg
  | list (l : List ColArg) : ColArg
  | tup (l : List ColArg) : ColArg
  | other : ColArg
deriving Repr

/-- Python exceptions raised by the embedded code. -/
inductive PyError where
  | valueError : PyError
  | indexError : PyError
deriving Repr, DecidableEq

/-- One stored aggregation specification `[op, cidx, na]`. -/
abbrev AggTriple := String × Int × String

/-- The `_aggs` dict: an insertion-ordered association list. -/
abbrev Aggs := List (String × AggTriple)

/-- The keys of the dict, in insertion order. -/
def keysOf (d : Aggs) : List String := d.map Prod.fst

/-- CPython dict assignment `d[k] = v`: if `k` is already a key the value
is replaced in place (position preserved), otherwise the pair is appended. -/
def dictSet (d : Aggs) (k : String) (v : AggTriple) : Aggs :=
  if k ∈ keysOf d then d.map (fun p => if p.1 = k then (k, v) else p)
  else d ++ [(k, v)]

/-- Dict lookup `d[k]` (first entry with key `k`). -/
def dlookup (k : String) : Aggs → Option AggTriple
  | [] => Option.none
  | p :: d => if p.1 = k then some p.2 else dlookup k d

/-- Python `names.index(s)`: index of the first occurrence, `none` when the
name is absent (the Python call raises `ValueError` then). -/
def namesIndex (names : List String) (s : String) : Option Nat :=
  List.findIdx? (fun n => n = s) names

/-- Python list subscript `names[i]` with negative-index semantics:
`names[i]` for `0 ≤ i < len`, `names[len + i]` for negative `i`,
`none` (IndexError) outside that range. -/
def pyGet (names : List String) (i : Int) : Option String :=
  if 0 ≤ i then names.get? i.toNat
  else
    let j := i + names.length
    if 0 ≤ j then names.get? j.toNat else Option.none

/-- The common tail of `_add_agg` once an integer column index `cidx` is in
hand: `name = "{}_{}".format(op, self._fr.names[cidx])` followed by
`self._aggs[name] = [op, cidx, na]`.  `names[cidx]` can raise IndexError. -/
def addAggInt (fr : Frame) (op : String) (cidx : Int) (na : String) (d : Aggs) :
    Aggs × Option PyError :=
  match pyGet fr.names cidx with
  | some cname => (dictSet d (op ++ "_" ++ cname) (op, cidx, na), Option.none)
  | Option.none => (d, some PyError.indexError)

/-- The `col is None` branch of `_add_agg`:
`for i in range(self._fr.ncol): if i not in self._by: self._add_agg(op, i, na)`.
Each recursive call re-checks `op == "nrow"` (replacing the index by 0)
and then lands in the integer branch; the loop stops at the first raise. -/
def addAggRange (fr : Frame) (grp : List Int) (op : String) (na : String) :
    List Nat → Aggs → Aggs × Option PyError
  | [], d => (d, Option.none)
  | i :: is, d =>
    if (i : Int) ∈ grp then addAggRange fr grp op na is d
    else
      let r := if op = "nrow" then addAggInt fr op 0 na d else addAggInt fr op ((i : Int)) na d
      match r.2 with
      | some e => (r.1, some e)
      | Option.none => addAggRange fr grp op na is r.1

mutual

/-- The body of `_add_agg` after the initial `if op == "nrow": col = 0`
replacement: dispatch on the dynamic type of `col`. -/
def addAggCore (fr : Frame) (grp : List Int) (op : String) (col : ColArg)
    (na : String) (d : Aggs) : Aggs × Option PyError :=
  match col with
  | ColArg.none => addAggRange fr grp op na (List.range fr.ncol) d
  | ColArg.str s =>
    match namesIndex fr.names s with
    | some cidx => addAggInt fr op ((cidx : Int)) na d
    | Option.none => (d, some PyError.valueError)
  | ColArg.int i => addAggInt fr op i na d
  | ColArg.list l => addAggSeq fr grp op l na d
  | ColArg.tup l => addAggSeq fr grp op l na d
  | ColArg.other => (d, some PyError.valueError)

/-- The `list`/`tuple` branch of `_add_agg`:
`for i in col: self._add_agg(op, i, na)`.  Each recursive call re-checks
`op == "nrow"` (replacing the element by 0, which then takes the integer
branch); the loop stops at the first raise. -/
def addAggSeq (fr : Frame) (grp : List Int) (op : String) (cols : List ColArg)
    (na : String) (d : Aggs) : Aggs × Option PyError :=
  match cols with
  | [] => (d, Option.none)
  | c :: cs =>
    let r := if op = "nrow" then addAggInt fr op 0 na d else addAggCore fr grp op c na d
    match r.2 with
    | some e => (r.1, some e)
    | Option.none => addAggSeq fr grp op cs na r.1

end

/-- `GroupBy._add_agg(op, col, na)` acting on the `_aggs` dict: first
`if op == "nrow": col = 0`, then the type dispatch.  Returns the dict after
the call and the raised exception, if any (`none` means the Python method
returned `self`). -/
def addAgg (fr : Frame) (grp : List Int) (op : String) (col : ColArg)
    (na : String) (d : Aggs) : Aggs × Option PyError :=
  if op = "nrow" then addAggCore fr grp op (ColArg.int 0) na d
  else addAggCore fr grp op col na d

/-- Modelled from the spec: one argument of the serialized expression
(`ExprNode` lives outside the provided source).  `get_frame` passes the
frame, the grouping-index list, and the flattened `[op, cidx, na]` entries,
which are strings and ints. -/
inductive ExprArg where
  | frame (fr : Frame) : ExprArg
  | nums (l : List Int) : ExprArg
  | str (s : String) : ExprArg
  | int (i : Int) : ExprArg
deriving Repr, DecidableEq

/-- Modelled from the spec: `ExprNode(op, *args)` — a node of the
expression serialized to the remote engine, holding a head operation name
and its argument list. -/
structure ExprNode where
  op : String
  args : List ExprArg
deriving Repr, DecidableEq

/-- Modelled from the spec: `h2o.H2OFrame._expr(expr=...)` — the handle to
remotely-held data, built from (and determined by) one expression. -/
structure H2OFrameRes where
  expr : ExprNode
deriving Repr, DecidableEq

/-- The state of a `GroupBy` object: members `_fr`, `_by`, `_aggs`, `_res`. -/
structure GroupBy where
  fr : Frame
  grp : List Int
  aggs : Aggs
  res : Option H2OFrameRes
deriving Repr

/-- One element of the `by` argument when it is a list or tuple: a `str`
is resolved through `names.index`, any other element (an index) is kept
unchanged. -/
inductive ByElem where
  | str (s : String) : ByElem
  | int (i : Int) : ByElem
deriving Repr, DecidableEq

/-- The dynamic type of the `by` argument of `GroupBy.__init__`: a `str`,
a `list` or `tuple` of elements, or any other value (an index). -/
inductive ByArg where
  | str (s : String) : ByArg
  | list (l : List ByElem) : ByArg
  | tup (l : List ByElem) : ByArg
  | other (i : Int) : ByArg
deriving Repr, DecidableEq

/-- `fr.names.index(b) if is_type(b, str) else b` for one element of a
list/tuple `by` argument (`none` when `names.index` raises ValueError). -/
def resolveByElem (fr : Frame) : ByElem → Option Int
  | ByElem.str s => (namesIndex fr.names s).map (fun n => (n : Int))
  | ByElem.int i => some i

/-- `GroupBy.__init__(fr, by)`: `_aggs = {}`, `_res = None`, and `_by` is
resolved from `by` — a `str` becomes `[fr.names.index(by)]`, a list/tuple
maps each `str` element through `names.index` keeping other elements, and
any other value `b` becomes `[b]`.  `none` when `names.index` raises.
The list/tuple case is the comprehension
`[fr.names.index(b) if is_type(b, str) else b for b in by]`, resolved
element-wise left to right (`resolveByList`), stopping at the first raise. -/
def resolveByList (fr : Frame) : List ByElem → Option (List Int)
  | [] => some []
  | e :: t =>
    match resolveByElem fr e with
    | some i => (resolveByList fr t).map (fun l => i :: l)
    | Option.none => Option.none

def groupByInit (fr : Frame) (b : ByArg) : Option GroupBy :=
  match b with
  | ByArg.str s => (namesIndex fr.names s).map (fun i => ⟨fr, [(i : Int)], [], Option.none⟩)
  | ByArg.list l => (resolveByList fr l).map (fun g => ⟨fr, g, [], Option.none⟩)
  | ByArg.tup l => (resolveByList fr l).map (fun g => ⟨fr, g, [], Option.none⟩)
  | ByArg.other i => some ⟨fr, [i], [], Option.none⟩

/-- An aggregation method call on the object: `return self._add_agg(op, col, na)`.
The first component is the state of the object after the call — which is
also the returned object (`self`) when no exception is raised. -/
def methodCall (g : GroupBy) (op : String) (col : ColArg) (na : String) :
    GroupBy × Option PyError :=
  let r := addAgg g.fr g.grp op col na g.aggs
  ({ g with aggs := r.1 }, r.2)

/-- `GroupBy.min(col, na)` = `self._add_agg("min", col, na)`. -/
def GroupBy.min (g : GroupBy) (col : ColArg) (na : String) : GroupBy × Option PyError :=
  methodCall g "min" col na

/-- `GroupBy.max(col, na)` = `self._add_agg("max", col, na)`. -/
def GroupBy.max (g : GroupBy) (col : ColArg) (na : String) : GroupBy × Option PyError :=
  methodCall g "max" col na

/-- `GroupBy.mean(col, na)` = `self._add_agg("mean", col, na)`. -/
def GroupBy.mean (g : GroupBy) (col : ColArg) (na : String) : GroupBy × Option PyError :=
  methodCall g "mean" col na

/-- `GroupBy.count(na)` = `self._add_agg("nrow", None, na)`. -/
def GroupBy.count (g : GroupBy) (na : String) : GroupBy × Option PyError :=
  methodCall g "nrow" ColArg.none na

/-- `GroupBy.sum(col, na)` = `self._add_agg("sum", col, na)`. -/
def GroupBy.sum (g : GroupBy) (col : ColArg) (na : String) : GroupBy × Option PyError :=
  methodCall g "sum" col na

/-- `GroupBy.sd(col, na)` = `self._add_agg("sdev", col, na)`. -/
def GroupBy.sd (g : GroupBy) (col : ColArg) (na : String) : GroupBy × Option PyError :=
  methodCall g "sdev" col na

/-- `GroupBy.var(col, na)` = `self._add_agg("var", col, na)`. -/
def GroupBy.var (g : GroupBy) (col : ColArg) (na : String) : GroupBy × Option PyError :=
  methodCall g "var" col na

/-- `GroupBy.ss(col, na)` = `self._add_agg("sumSquares", col, na)`. -/
def GroupBy.ss (g : GroupBy) (col : ColArg) (na : String) : GroupBy × Option PyError :=
  methodCall g "sumSquares" col na

/-- `GroupBy.mode(col, na)` = `self._add_agg("mode", col, na)`. -/
def GroupBy.mode (g : GroupBy) (col : ColArg) (na : String) : GroupBy × Option PyError :=
  methodCall g "mode" col na

/-- `aggs = []; for k in self._aggs: aggs += (self._aggs[k])` — flatten the
stored triples, in dict (= insertion) order, into expression arguments. -/
def flattenAggs (d : Aggs) : List ExprArg :=
  (d.map (fun p => [ExprArg.str p.2.1, ExprArg.int p.2.2.1, ExprArg.str p.2.2.2])).flatten

/-- `GroupBy.get_frame()`: when `_res is None`, build
`ExprNode("GB", self._fr, self._by, *aggs)`, wrap it in a frame handle,
cache it in `_res` and return it; otherwise return the cached handle.
Returns the handle and the object state after the call. -/
def GroupBy.get_frame (g : GroupBy) : H2OFrameRes × GroupBy :=
  match g.res with
  | some r => (r, g)
  | Option.none =>
    let r : H2OFrameRes :=
      ⟨⟨"GB", ExprArg.frame g.fr :: ExprArg.nums g.grp :: flattenAggs g.aggs⟩⟩
    (r, { g with res := some r })

/-- The `frame` property: `return self.get_frame()`. -/
def GroupBy.frameProp (g : GroupBy) : H2OFrameRes × GroupBy :=
  GroupBy.get_frame g

/-- One public call on a `GroupBy` object, for reasoning about arbitrary
call sequences: one of the nine aggregation methods, or `get_frame`. -/
inductive GBCall where
  | mn (col : ColArg) (na : String) : GBCall
  | mx (col : ColArg) (na : String) : GBCall
  | mean (col : ColArg) (na : String) : GBCall
  | count (na : String) : GBCall
  | sum (col : ColArg) (na : String) : GBCall
  | sd (col : ColArg) (na : String) : GBCall
  | var (col : ColArg) (na : String) : GBCall
  | ss (col : ColArg) (na : String) : GBCall
  | mode (col : ColArg) (na : String) : GBCall
  | getFrame : GBCall

/-- The object state after one call (the state at the raise, if one). -/
def dispatch (g : GroupBy) : GBCall → GroupBy
  | GBCall.mn col na => (GroupBy.min g col na).1
  | GBCall.mx col na => (GroupBy.max g col na).1
  | GBCall.mean col na => (GroupBy.mean g col na).1
  | GBCall.count na => (GroupBy.count g na).1
  | GBCall.sum col na => (GroupBy.sum g col na).1
  | GBCall.sd col na => (GroupBy.sd g col na).1
  | GBCall.var col na => (GroupBy.var g col na).1
  | GBCall.ss col na => (GroupBy.ss g col na).1
  | GBCall.mode col na => (GroupBy.mode g col na).1
  | GBCall.getFrame => (GroupBy.get_frame g).2

/-- The object state after a sequence of calls. -/
def runCalls (g : GroupBy) : List GBCall → GroupBy
  | [] => g
  | c :: cs => runCalls (dispatch g c) cs

/-! ### Dictionary lemmas -/

/-- A write trace: the sequence of dict assignments a call performs. -/
def applyWrites : List (String × AggTriple) → Aggs → Aggs
  | [], d => d
  | (k, v) :: ws, d => applyWrites ws (dictSet d k v)

/-- Left-biased choice on options (Python: first binding wins on lookup). -/
def oo (a b : Option AggTriple) : Option AggTriple :=
  match a with
  | some x => some x
  | Option.none => b

/-- The value of the last write to key `k` in a trace, if any. -/
def lastWrite (k : String) : List (String × AggTriple) → Option AggTriple
  | [] => Option.none
  | (k2, v) :: ws => oo (lastWrite k ws) (if k2 = k then some v else Option.none)

theorem oo_none_left (b : Option AggTriple) : oo Option.none b = b := rfl

theorem oo_none_right (a : Option AggTriple) : oo a Option.none = a := by
  cases a <;> rfl

theorem oo_self_absorb (a b : Option AggTriple) : oo a (oo a b) = oo a b := by
  cases a <;> rfl

theorem oo_assoc (a b c : Option AggTriple) : oo (oo a b) c = oo a (oo b c) := by
  cases a <;> rfl

theorem keysOf_nil : keysOf [] = [] := rfl

theorem keysOf_cons (p : String × AggTriple) (d : Aggs) :
    keysOf (p :: d) = p.1 :: keysOf d := rfl

theorem keysOf_append (d e : Aggs) : keysOf (d ++ e) = keysOf d ++ keysOf e := by
  simp [keysOf]

theorem keysOf_mapSet (d : Aggs) (k : String) (v : AggTriple) :
    keysOf (d.map (fun p => if p.1 = k then (k, v) else p)) = keysOf d := by
  have hf : (Prod.fst ∘ fun p : String × AggTriple => if p.1 = k then (k, v) else p)
      = Prod.fst := by
    funext p
    by_cases h : p.1 = k <;> simp [h]
  unfold keysOf
  rw [List.map_map, hf]

theorem keysOf_dictSet (d : Aggs) (k : String) (v : AggTriple) :
    keysOf (dictSet d k v) =
      if k ∈ keysOf d then keysOf d else keysOf d ++ [k] := by
  by_cases h : k ∈ keysOf d
  · rw [dictSet, if_pos h, if_pos h, keysOf_mapSet]
  · rw [dictSet, if_neg h, if_neg h, keysOf_append]
    rfl

theorem mem_keysOf_dictSet_self (d : Aggs) (k : String) (v : AggTriple) :
    k ∈ keysOf (dictSet d k v) := by
  rw [keysOf_dictSet]
  by_cases h : k ∈ keysOf d <;> simp [h]

theorem mem_keysOf_dictSet_of_mem (d : Aggs) (k k2 : String) (v : AggTriple)
    (h : k2 ∈ keysOf d) : k2 ∈ keysOf (dictSet d k v) := by
  rw [keysOf_dictSet]
  by_cases hk : k ∈ keysOf d <;> simp [hk, h]

theorem nodup_keysOf_dictSet (d : Aggs) (k : String) (v : AggTriple)
    (h : (keysOf d).Nodup) : (keysOf (dictSet d k v)).Nodup := by
  rw [keysOf_dictSet]
  by_cases hk : k ∈ keysOf d
  · simpa [hk] using h
  · simp [hk, List.nodup_append, h]

theorem dlookup_not_mem (d : Aggs) (k : String) (h : k ∉ keysOf d) :
    dlookup k d = Option.none := by
  induction d with
  | nil => rfl
  | cons p t ih =>
    rw [keysOf_cons] at h
    simp only [List.mem_cons] at h
    push_neg at h
    simp only [dlookup]
    rw [if_neg (fun he => h.1 he.symm)]
    exact ih h.2

theorem dlookup_isSome_of_mem (d : Aggs) (k : String) (h : k ∈ keysOf d) :
    (dlookup k d).isSome := by
  induction d with
  | nil => simp [keysOf_nil] at h
  | cons p t ih =>
    by_cases hp : p.1 = k
    · simp [dlookup, hp]
    · rw [keysOf_cons] at h
      simp only [List.mem_cons] at h
      rcases h with h | h
      · exact absurd h.symm hp
      · simp only [dlookup]
        rw [if_neg hp]
        exact ih h

theorem dlookup_append (d e : Aggs) (k : String) :
    dlookup k (d ++ e) = oo (dlookup k d) (dlookup k e) := by
  induction d with
  | nil => simp [dlookup, oo_none_left]
  | cons p t ih =>
    by_cases hp : p.1 = k <;> simp [dlookup, hp, ih, oo]

theorem dlookup_mapSet_self (d : Aggs) (k : String) (v : AggTriple) (h : k ∈ keysOf d) :
    dlookup k (d.map (fun p => if p.1 = k then (k, v) else p)) = some v := by
  induction d with
  | nil => simp [keysOf_nil] at h
  | cons p t ih =>
    by_cases hp : p.1 = k
    · simp [dlookup, hp]
    · simp [keysOf_cons] at h
      rcases h with h | h
      · exact absurd h.symm hp
      · simp [dlookup, hp, ih h]

theorem dlookup_mapSet_other (d : Aggs) (k k2 : String) (v : AggTriple) (h : k2 ≠ k) :
    dlookup k2 (d.map (fun p => if p.1 = k then (k, v) else p)) = dlookup k2 d := by
  induction d with
  | nil => rfl
  | cons p t ih =>
    by_cases hp : p.1 = k
    · simp [dlookup, hp, Ne.symm h, ih]
    · simp [dlookup, hp, ih]

theorem dlookup_dictSet_self (d : Aggs) (k : String) (v : AggTriple) :
    dlookup k (dictSet d k v) = some v := by
  unfold dictSet
  by_cases h : k ∈ keysOf d
  · simp [h, dlookup_mapSet_self d k v h]
  · simp [h, dlookup_append, dlookup_not_mem d k h, oo_none_left, dlookup]

theorem dlookup_dictSet_other (d : Aggs) (k k2 : String) (v : AggTriple) (h : k2 ≠ k) :
    dlookup k2 (dictSet d k v) = dlookup k2 d := by
  by_cases hm : k ∈ keysOf d
  · rw [dictSet, if_pos hm]
    exact dlookup_mapSet_other d k k2 v h
  · rw [dictSet, if_neg hm, dlookup_append]
    simp only [dlookup]
    rw [if_neg (Ne.symm h), oo_none_right]

theorem applyWrites_nil (d : Aggs) : applyWrites [] d = d := rfl

theorem applyWrites_cons (k : String) (v : AggTriple) (ws : List (String × AggTriple))
    (d : Aggs) : applyWrites ((k, v) :: ws) d = applyWrites ws (dictSet d k v) := rfl

theorem applyWrites_append (ws1 ws2 : List (String × AggTriple)) (d : Aggs) :
    applyWrites (ws1 ++ ws2) d = applyWrites ws2 (applyWrites ws1 d) := by
  induction ws1 generalizing d with
  | nil => rfl
  | cons p t ih =>
    rcases p with ⟨k, v⟩
    rw [List.cons_append, applyWrites_cons, applyWrites_cons, ih]

theorem mem_keysOf_applyWrites_of_mem (ws : List (String × AggTriple)) (d : Aggs)
    (k2 : String) (h : k2 ∈ keysOf d) : k2 ∈ keysOf (applyWrites ws d) := by
  induction ws generalizing d with
  | nil => exact h
  | cons p t ih =>
    rcases p with ⟨k, v⟩
    rw [applyWrites_cons]
    exact ih (dictSet d k v) (mem_keysOf_dictSet_of_mem d k k2 v h)

theorem keysOf_subset_applyWrites (ws : List (String × AggTriple)) (d : Aggs)
    (p : String × AggTriple) (h : p ∈ ws) : p.1 ∈ keysOf (applyWrites ws d) := by
  induction ws generalizing d with
  | nil => cases h
  | cons q t ih =>
    rcases q with ⟨k, v⟩
    rw [applyWrites_cons]
    rcases List.mem_cons.mp h with h | h
    · subst h
      exact mem_keysOf_applyWrites_of_mem t (dictSet d k v) k
        (mem_keysOf_dictSet_self d k v)
    · exact ih (dictSet d k v) h

theorem keysOf_applyWrites_of_subset (ws : List (String × AggTriple)) (d : Aggs)
    (h : ∀ p ∈ ws, p.1 ∈ keysOf d) : keysOf (applyWrites ws d) = keysOf d := by
  induction ws generalizing d with
  | nil => rfl
  | cons q t ih =>
    rcases q with ⟨k, v⟩
    rw [applyWrites_cons]
    have hk : k ∈ keysOf d := h (k, v) (List.mem_cons_self _ _)
    have hks : keysOf (dictSet d k v) = keysOf d := by
      rw [keysOf_dictSet, if_pos hk]
    rw [ih (dictSet d k v) (fun p hp => hks ▸ h p (List.mem_cons_of_mem _ hp)), hks]

theorem nodup_keysOf_applyWrites (ws : List (String × AggTriple)) (d : Aggs)
    (h : (keysOf d).Nodup) : (keysOf (applyWrites ws d)).Nodup := by
  induction ws generalizing d with
  | nil => exact h
  | cons q t ih =>
    rcases q with ⟨k, v⟩
    rw [applyWrites_cons]
    exact ih (dictSet d k v) (nodup_keysOf_dictSet d k v h)

theorem dlookup_applyWrites (ws : List (String × AggTriple)) (d : Aggs) (k : String) :
    dlookup k (applyWrites ws d) = oo (lastWrite k ws) (dlookup k d) := by
  induction ws generalizing d with
  | nil => rfl
  | cons q t ih =>
    rcases q with ⟨k2, v⟩
    rw [applyWrites_cons, ih]
    by_cases h : k2 = k
    · subst h
      rw [dlookup_dictSet_self]
      simp only [lastWrite, if_pos rfl]
      rw [oo_assoc]
      rfl
    · rw [dlookup_dictSet_other d k2 k v (fun he => h he.symm)]
      simp only [lastWrite]
      rw [if_neg h, oo_none_right]

theorem aggs_ext (d1 d2 : Aggs) (hk : keysOf d1 = keysOf d2)
    (hnd : (keysOf d1).Nodup) (hl : ∀ k, dlookup k d1 = dlookup k d2) : d1 = d2 := by
  induction d1 generalizing d2 with
  | nil =>
    rcases d2 with _ | ⟨p, t⟩
    · rfl
    · exact absurd hk (by simp [keysOf_nil, keysOf_cons])
  | cons p t ih =>
    rcases d2 with _ | ⟨q, t2⟩
    · exact absurd hk (by simp [keysOf_nil, keysOf_cons])
    · rw [keysOf_cons, keysOf_cons] at hk
      have hkey : p.1 = q.1 := List.head_eq_of_cons_eq hk
      have htk : keysOf t = keysOf t2 := List.tail_eq_of_cons_eq hk
      rw [keysOf_cons] at hnd
      have hnd2 := List.nodup_cons.mp hnd
      have hv : p.2 = q.2 := by
        have := hl p.1
        rw [dlookup, dlookup, if_pos rfl, if_pos hkey.symm] at this
        exact Option.some.inj this
      have ht : t = t2 := by
        refine ih t2 htk hnd2.2 (fun k => ?_)
        by_cases hkp : k = p.1
        · subst hkp
          rw [dlookup_not_mem t p.1 hnd2.1, dlookup_not_mem t2 p.1 (htk ▸ hnd2.1)]
        · have := hl k
          rw [dlookup, dlookup, if_neg (fun he => hkp he.symm),
            if_neg (fun he => hkp (hkey ▸ he.symm))] at this
          exact this
      rcases p with ⟨pk, pv⟩
      rcases q with ⟨qk, qv⟩
      simp only at hkey hv
      rw [hkey, hv, ht]

theorem applyWrites_idem (ws : List (String × AggTriple)) (d : Aggs)
    (hnd : (keysOf d).Nodup) :
    applyWrites ws (applyWrites ws d) = applyWrites ws d := by
  refine aggs_ext _ _ ?_ ?_ ?_
  · exact keysOf_applyWrites_of_subset ws (applyWrites ws d)
      (fun p hp => keysOf_subset_applyWrites ws d p hp)
  · exact nodup_keysOf_applyWrites ws (applyWrites ws d)
      (nodup_keysOf_applyWrites ws d hnd)
  · intro k
    rw [dlookup_applyWrites, dlookup_applyWrites, oo_self_absorb]

theorem dictSet_dictSet_same (d : Aggs) (k : String) (v1 v2 : AggTriple) :
    dictSet (dictSet d k v1) k v2 = dictSet d k v2 := by
  by_cases h : k ∈ keysOf d
  · have e1 : dictSet d k v1 = d.map (fun p => if p.1 = k then (k, v1) else p) := by
      rw [dictSet, if_pos h]
    have e2 : dictSet d k v2 = d.map (fun p => if p.1 = k then (k, v2) else p) := by
      rw [dictSet, if_pos h]
    have hm : k ∈ keysOf (d.map (fun p => if p.1 = k then (k, v1) else p)) := by
      rw [keysOf_mapSet]
      exact h
    rw [e2, e1, dictSet, if_pos hm, List.map_map]
    apply List.map_congr_left
    intro p _
    by_cases hp : p.1 = k <;> simp [hp]
  · have e1 : dictSet d k v1 = d ++ [(k, v1)] := by
      rw [dictSet, if_neg h]
    have e2 : dictSet d k v2 = d ++ [(k, v2)] := by
      rw [dictSet, if_neg h]
    have hm : k ∈ keysOf (d ++ [(k, v1)]) := by
      rw [keysOf_append]
      simp [keysOf]
    rw [e2, e1, dictSet, if_pos hm, List.map_append]
    have hmap : d.map (fun p => if p.1 = k then (k, v2) else p) = d := by
      have hid : ∀ p ∈ d, (if p.1 = k then (k, v2) else p) = id p := by
        intro p hp
        have hpk : p.1 ≠ k := by
          intro he
          exact h (he ▸ List.mem_map_of_mem Prod.fst hp)
        rw [id_eq, if_neg hpk]
      rw [List.map_congr_left hid, List.map_id]
    rw [hmap]
    simp

/-! ### Write traces

`_add_agg` performs a sequence of dict assignments that depends only on the
frame, the grouping indices and the arguments — never on the current
contents of `_aggs`.  The trace functions below compute that sequence (cut
off at the first raise), and the decomposition lemmas show each `addAgg`
variant equals replaying its trace over the incoming dict. -/

/-- The writes and outcome of the integer tail of `_add_agg`. -/
def traceInt (fr : Frame) (op : String) (cidx : Int) (na : String) :
    List (String × AggTriple) × Option PyError :=
  match pyGet fr.names cidx with
  | some cname => ([(op ++ "_" ++ cname, (op, cidx, na))], Option.none)
  | Option.none => ([], some PyError.indexError)

/-- The writes and outcome of the `col is None` loop of `_add_agg`. -/
def traceRange (fr : Frame) (grp : List Int) (op : String) (na : String) :
    List Nat → List (String × AggTriple) × Option PyError
  | [] => ([], Option.none)
  | i :: is =>
    if (i : Int) ∈ grp then traceRange fr grp op na is
    else
      let r := if op = "nrow" then traceInt fr op 0 na else traceInt fr op ((i : Int)) na
      match r.2 with
      | some e => (r.1, some e)
      | Option.none =>
        let t := traceRange fr grp op na is
        (r.1 ++ t.1, t.2)

mutual

/-- The writes and outcome of the body of `_add_agg`. -/
def traceCore (fr : Frame) (grp : List Int) (op : String) (col : ColArg)
    (na : String) : List (String × AggTriple) × Option PyError :=
  match col with
  | ColArg.none => traceRange fr grp op na (List.range fr.ncol)
  | ColArg.str s =>
    match namesIndex fr.names s with
    | some cidx => traceInt fr op ((cidx : Int)) na
    | Option.none => ([], some PyError.valueError)
  | ColArg.int i => traceInt fr op i na
  | ColArg.list l => traceSeq fr grp op l na
  | ColArg.tup l => traceSeq fr grp op l na
  | ColArg.other => ([], some PyError.valueError)

/-- The writes and outcome of the `list`/`tuple` loop of `_add_agg`. -/
def traceSeq (fr : Frame) (grp : List Int) (op : String) (cols : List ColArg)
    (na : String) : List (String × AggTriple) × Option PyError :=
  match cols with
  | [] => ([], Option.none)
  | c :: cs =>
    let r := if op = "nrow" then traceInt fr op 0 na else traceCore fr grp op c na
    match r.2 with
    | some e => (r.1, some e)
    | Option.none =>
      let t := traceSeq fr grp op cs na
      (r.1 ++ t.1, t.2)

end

/-- The writes and outcome of a whole `_add_agg(op, col, na)` call. -/
def aggTrace (fr : Frame) (grp : List Int) (op : String) (col : ColArg)
    (na : String) : List (String × AggTriple) × Option PyError :=
  if op = "nrow" then traceCore fr grp op (ColArg.int 0) na
  else traceCore fr grp op col na

theorem addAggInt_eq (fr : Frame) (op : String) (cidx : Int) (na : String) (d : Aggs) :
    addAggInt fr op cidx na d =
      (applyWrites (traceInt fr op cidx na).1 d, (traceInt fr op cidx na).2) := by
  unfold addAggInt traceInt
  cases pyGet fr.names cidx <;> rfl

theorem addAggRange_eq (fr : Frame) (grp : List Int) (op : String) (na : String)
    (l : List Nat) (d : Aggs) :
    addAggRange fr grp op na l d =
      (applyWrites (traceRange fr grp op na l).1 d, (traceRange fr grp op na l).2) := by
  induction l generalizing d with
  | nil => rfl
  | cons i is ih =>
    by_cases hg : (i : Int) ∈ grp
    · simp only [addAggRange, traceRange, if_pos hg]
      exact ih d
    · simp only [addAggRange, traceRange, if_neg hg]
      by_cases hn : op = "nrow"
      · simp only [if_pos hn]
        cases hpg : pyGet fr.names 0 with
        | none => simp [addAggInt, traceInt, hpg, applyWrites_nil]
        | some cname => simp [addAggInt, traceInt, hpg, ih, applyWrites_cons, applyWrites_append]
      · simp only [if_neg hn]
        cases hpg : pyGet fr.names ((i : Int)) with
        | none => simp [addAggInt, traceInt, hpg, applyWrites_nil]
        | some cname => simp [addAggInt, traceInt, hpg, ih, applyWrites_cons, applyWrites_append]

mutual

theorem addAggCore_eq (fr : Frame) (grp : List Int) (op : String) (col : ColArg)
    (na : String) (d : Aggs) :
    addAggCore fr grp op col na d =
      (applyWrites (traceCore fr grp op col na).1 d, (traceCore fr grp op col na).2) := by
  cases col with
  | none =>
    simp only [addAggCore, traceCore]
    exact addAggRange_eq fr grp op na (List.range fr.ncol) d
  | str s =>
    cases hni : namesIndex fr.names s with
    | none => simp [addAggCore, traceCore, hni, applyWrites_nil]
    | some cidx => simp [addAggCore, traceCore, hni, addAggInt_eq]
  | int i =>
    simp only [addAggCore, traceCore]
    exact addAggInt_eq fr op i na d
  | list l =>
    simp only [addAggCore, traceCore]
    exact addAggSeq_eq fr grp op l na d
  | tup l =>
    simp only [addAggCore, traceCore]
    exact addAggSeq_eq fr grp op l na d
  | other => rfl

theorem addAggSeq_eq (fr : Frame) (grp : List Int) (op : String) (cols : List ColArg)
    (na : String) (d : Aggs) :
    addAggSeq fr grp op cols na d =
      (applyWrites (traceSeq fr grp op cols na).1 d, (traceSeq fr grp op cols na).2) := by
  cases cols with
  | nil => rfl
  | cons c cs =>
    by_cases hn : op = "nrow"
    · simp only [addAggSeq, traceSeq, if_pos hn]
      cases hpg : pyGet fr.names 0 with
      | none => simp [addAggInt, traceInt, hpg, applyWrites_nil]
      | some cname =>
        simp [addAggInt, traceInt, hpg, addAggSeq_eq fr grp op cs na,
          applyWrites_cons, applyWrites_append]
    · simp only [addAggSeq, traceSeq, if_neg hn]
      rcases htc : traceCore fr grp op c na with ⟨ws, e⟩
      cases e with
      | none =>
        simp [addAggCore_eq fr grp op c na d, htc,
          addAggSeq_eq fr grp op cs na, applyWrites_append]
      | some err =>
        simp [addAggCore_eq fr grp op c na d, htc]

end

/-- `_add_agg` replays its write trace over the incoming dict; trace and
outcome do not depend on the dict. -/
theorem addAgg_eq (fr : Frame) (grp : List Int) (op : String) (col : ColArg)
    (na : String) (d : Aggs) :
    addAgg fr grp op col na d =
      (applyWrites (aggTrace fr grp op col na).1 d, (aggTrace fr grp op col na).2) := by
  unfold addAgg aggTrace
  by_cases hn : op = "nrow"
  · simp only [if_pos hn]
    exact addAggCore_eq fr grp op (ColArg.int 0) na d
  · simp only [if_neg hn]
    exact addAggCore_eq fr grp op col na d

/-! ### Bridging lemmas -/

/-- `names.index(s)` finds the index of the first occurrence of `s`, and the
name at that index is `s` itself. -/
theorem namesIndex_spec (names : List String) (s : String) (h : s ∈ names) :
    namesIndex names s = some (names.indexOf s) ∧
      names.get? (names.indexOf s) = some s := by
  induction names with
  | nil => cases h
  | cons n t ih =>
    by_cases hn : n = s
    · refine ⟨?_, ?_⟩
      · simp [namesIndex, List.findIdx?_cons, hn, List.indexOf_cons_eq t hn]
      · simp [List.indexOf_cons_eq t hn, hn]
    · have hmem : s ∈ t := (List.mem_cons.mp h).resolve_left (fun he => hn he.symm)
      have iht := ih hmem
      refine ⟨?_, ?_⟩
      · simp only [namesIndex, List.findIdx?_cons]
        rw [if_neg (by simpa using hn), List.findIdx?_succ, List.indexOf_cons_ne t hn]
        have h1 : List.findIdx? (fun n => decide (n = s)) t = some (t.indexOf s) := iht.1
        rw [h1]
        rfl
      · rw [List.indexOf_cons_ne t hn]
        simpa using iht.2

/-- Subscripting with a nonnegative index is plain list indexing. -/
theorem pyGet_natCast (names : List String) (i : Nat) :
    pyGet names (i : Int) = names.get? i := by
  unfold pyGet
  rw [if_pos (Int.natCast_nonneg i)]
  simp

/-- In-range indexing yields the `getD` default-free element. -/
theorem get?_eq_getD (names : List String) (i : Nat) (h : i < names.length) :
    names.get? i = some (names.getD i "") := by
  rw [List.getD_eq_getElem?_getD, List.get?_eq_getElem?, List.getElem?_eq_getElem h]
  rfl

/-! ### State preservation across calls -/

theorem dispatch_fr (g : GroupBy) (c : GBCall) : (dispatch g c).fr = g.fr := by
  cases c <;>
    simp only [dispatch, GroupBy.min, GroupBy.max, GroupBy.mean, GroupBy.count,
      GroupBy.sum, GroupBy.sd, GroupBy.var, GroupBy.ss, GroupBy.mode, methodCall]
  cases hr : g.res <;> simp [GroupBy.get_frame, hr]

theorem dispatch_grp (g : GroupBy) (c : GBCall) : (dispatch g c).grp = g.grp := by
  cases c <;>
    simp only [dispatch, GroupBy.min, GroupBy.max, GroupBy.mean, GroupBy.count,
      GroupBy.sum, GroupBy.sd, GroupBy.var, GroupBy.ss, GroupBy.mode, methodCall]
  cases hr : g.res <;> simp [GroupBy.get_frame, hr]

theorem dispatch_res_some (g : GroupBy) (c : GBCall) (r : H2OFrameRes)
    (h : g.res = some r) : (dispatch g c).res = some r := by
  cases c <;>
    simp only [dispatch, GroupBy.min, GroupBy.max, GroupBy.mean, GroupBy.count,
      GroupBy.sum, GroupBy.sd, GroupBy.var, GroupBy.ss, GroupBy.mode, methodCall] <;>
    try exact h
  simp [GroupBy.get_frame, h]

theorem runCalls_fr (g : GroupBy) (cs : List GBCall) : (runCalls g cs).fr = g.fr := by
  induction cs generalizing g with
  | nil => rfl
  | cons c cs ih => rw [runCalls, ih (dispatch g c), dispatch_fr]

theorem runCalls_grp (g : GroupBy) (cs : List GBCall) : (runCalls g cs).grp = g.grp := by
  induction cs generalizing g with
  | nil => rfl
  | cons c cs ih => rw [runCalls, ih (dispatch g c), dispatch_grp]

theorem runCalls_res_some (g : GroupBy) (cs : List GBCall) (r : H2OFrameRes)
    (h : g.res = some r) : (runCalls g cs).res = some r := by
  induction cs generalizing g with
  | nil => exact h
  | cons c cs ih => exact ih (dispatch g c) (dispatch_res_some g c r h)

theorem get_frame_of_some (g : GroupBy) (r : H2OFrameRes) (h : g.res = some r) :
    GroupBy.get_frame g = (r, g) := by
  unfold GroupBy.get_frame
  rw [h]

theorem get_frame_res_some (g : GroupBy) :
    (GroupBy.get_frame g).2.res = some ((GroupBy.get_frame g).1) := by
  cases hr : g.res <;> simp [GroupBy.get_frame, hr]

/-! ### Claims -/

/-- C1: on a `GroupBy` whose `_res` is still `None`, `get_frame()` builds
exactly one `ExprNode` with head `"GB"` whose arguments are the stored
frame, the grouping-index list and the concatenation of every accumulated
`[op, cidx, na]` triple (in dict order), returns the frame handle built
from that one expression, and caches it — for any number of accumulated
aggregations. -/
theorem claim_C1_get_frame_single_GB_expression (g : GroupBy)
    (h : g.res = Option.none) :
    GroupBy.get_frame g =
      (H2OFrameRes.mk (ExprNode.mk "GB"
          (ExprArg.frame g.fr :: ExprArg.nums g.grp ::
            (g.aggs.map (fun p =>
              [ExprArg.str p.2.1, ExprArg.int p.2.2.1, ExprArg.str p.2.2.2])).flatten)),
        { g with res := some (H2OFrameRes.mk (ExprNode.mk "GB"
          (ExprArg.frame g.fr :: ExprArg.nums g.grp ::
            (g.aggs.map (fun p =>
              [ExprArg.str p.2.1, ExprArg.int p.2.2.1, ExprArg.str p.2.2.2])).flatten))) }) := by
  unfold GroupBy.get_frame
  rw [h]
  rfl

/-- Witness for C1 at a concrete two-aggregation `GroupBy`. -/
theorem claim_C1_get_frame_single_GB_expression_witness :
    GroupBy.get_frame ⟨⟨["C1", "C2"], ["int", "real"]⟩, [0],
        [("min_C2", ("min", 1, "all")), ("sum_C2", ("sum", 1, "rm"))], Option.none⟩ =
      (H2OFrameRes.mk (ExprNode.mk "GB"
          [ExprArg.frame ⟨["C1", "C2"], ["int", "real"]⟩, ExprArg.nums [0],
           ExprArg.str "min", ExprArg.int 1, ExprArg.str "all",
           ExprArg.str "sum", ExprArg.int 1, ExprArg.str "rm"]),
        ⟨⟨["C1", "C2"], ["int", "real"]⟩, [0],
          [("min_C2", ("min", 1, "all")), ("sum_C2", ("sum", 1, "rm"))],
          some (H2OFrameRes.mk (ExprNode.mk "GB"
            [ExprArg.frame ⟨["C1", "C2"], ["int", "real"]⟩, ExprArg.nums [0],
             ExprArg.str "min", ExprArg.int 1, ExprArg.str "all",
             ExprArg.str "sum", ExprArg.int 1, ExprArg.str "rm"]))⟩) :=
  claim_C1_get_frame_single_GB_expression _ rfl

/-- C5: every aggregation method returns the very object it was called on
(`self`): in this embedding a method call yields the post-call state of the
object, and the returned object keeps the constructor-fixed members `_fr`,
`_by` and the cache `_res` — only `_aggs` is extended — which is what makes
chaining possible. -/
theorem claim_C5_aggregation_methods_return_self (g : GroupBy) (col : ColArg)
    (na : String) (r : GroupBy × Option PyError)
    (h : r = GroupBy.min g col na ∨ r = GroupBy.max g col na ∨
         r = GroupBy.mean g col na ∨ r = GroupBy.count g na ∨
         r = GroupBy.sum g col na ∨ r = GroupBy.sd g col na ∨
         r = GroupBy.var g col na ∨ r = GroupBy.ss g col na ∨
         r = GroupBy.mode g col na) :
    r.1.fr = g.fr ∧ r.1.grp = g.grp ∧ r.1.res = g.res := by
  rcases h with h | h | h | h | h | h | h | h | h <;> subst h <;> exact ⟨rfl, rfl, rfl⟩

/-- Witness for C5: the `min` method on a concrete `GroupBy`. -/
theorem claim_C5_aggregation_methods_return_self_witness :
    (GroupBy.min ⟨⟨["C1"], ["int"]⟩, [], [], Option.none⟩ (ColArg.int 0) "all").1.fr
        = ⟨["C1"], ["int"]⟩ ∧
      (GroupBy.min ⟨⟨["C1"], ["int"]⟩, [], [], Option.none⟩ (ColArg.int 0) "all").1.grp
        = [] ∧
      (GroupBy.min ⟨⟨["C1"], ["int"]⟩, [], [], Option.none⟩ (ColArg.int 0) "all").1.res
        = Option.none :=
  claim_C5_aggregation_methods_return_self
    ⟨⟨["C1"], ["int"]⟩, [], [], Option.none⟩ (ColArg.int 0) "all" _ (Or.inl rfl)

/-- C7: no sequence of aggregation-method calls and `get_frame()` calls
mutates the inputs fixed at construction: the stored frame `_fr` and the
resolved grouping indices `_by` keep their constructor-set values. -/
theorem claim_C7_constructor_inputs_never_mutated (g : GroupBy) (cs : List GBCall) :
    (runCalls g cs).fr = g.fr ∧ (runCalls g cs).grp = g.grp :=
  ⟨runCalls_fr g cs, runCalls_grp g cs⟩

/-- C9: after the first `get_frame()` the result is cached: a second
`get_frame()` returns the same handle, the `frame` property is exactly
`get_frame()`, and any sequence of further calls — aggregation methods
included — leaves the handle returned by later `get_frame()` unchanged. -/
theorem claim_C9_get_frame_result_cached (g : GroupBy) (cs : List GBCall) :
    (GroupBy.get_frame ((GroupBy.get_frame g).2)).1 = (GroupBy.get_frame g).1 ∧
    GroupBy.frameProp ((GroupBy.get_frame g).2)
      = GroupBy.get_frame ((GroupBy.get_frame g).2) ∧
    (GroupBy.get_frame (runCalls ((GroupBy.get_frame g).2) cs)).1
      = (GroupBy.get_frame g).1 := by
  have h1 := get_frame_res_some g
  refine ⟨?_, rfl, ?_⟩
  · rw [get_frame_of_some _ _ h1]
  · rw [get_frame_of_some _ _ (runCalls_res_some _ cs _ h1)]

/-- C10: calling an aggregation method with a `col` that is neither `None`,
nor a string, nor an int, nor a list/tuple raises `ValueError` and leaves
the accumulated aggregation specifications (indeed the whole object state)
unchanged. -/
theorem claim_C10_bad_col_type_raises_valueerror (g : GroupBy) (na : String) :
    GroupBy.min g ColArg.other na = (g, some PyError.valueError) ∧
    GroupBy.max g ColArg.other na = (g, some PyError.valueError) ∧
    GroupBy.mean g ColArg.other na = (g, some PyError.valueError) ∧
    GroupBy.sum g ColArg.other na = (g, some PyError.valueError) ∧
    GroupBy.sd g ColArg.other na = (g, some PyError.valueError) ∧
    GroupBy.var g ColArg.other na = (g, some PyError.valueError) ∧
    GroupBy.ss g ColArg.other na = (g, some PyError.valueError) ∧
    GroupBy.mode g ColArg.other na = (g, some PyError.valueError) := by
  refine ⟨?_, ?_, ?_, ?_, ?_, ?_, ?_, ?_⟩ <;> rfl

theorem addAggInt_replace (fr : Frame) (op : String) (cidx : Int)
    (na1 na2 : String) (d : Aggs) :
    addAggInt fr op cidx na2 (addAggInt fr op cidx na1 d).1
      = addAggInt fr op cidx na2 d := by
  cases hpg : pyGet fr.names cidx <;>
    simp [addAggInt, hpg, dictSet_dictSet_same]

theorem addAggInt_nodup (fr : Frame) (op : String) (cidx : Int) (na : String)
    (d : Aggs) (h : (keysOf d).Nodup) :
    (keysOf (addAggInt fr op cidx na d).1).Nodup := by
  cases hpg : pyGet fr.names cidx <;>
    simp [addAggInt, hpg, h, nodup_keysOf_dictSet]

/-- C2 counterexample: on a one-column frame, adding `min` on column 0 with
na-policy `"all"` and then `min` on column 0 with na-policy `"rm"` does NOT
retain both specifications — the two share the dict key `"min_C1"`, so the
first triple is gone and only the `"rm"` one remains. -/
theorem claim_C2_distinct_na_not_retained_counterexample :
    (GroupBy.min ((GroupBy.min ⟨⟨["C1"], ["int"]⟩, [], [], Option.none⟩
          (ColArg.int 0) "all").1) (ColArg.int 0) "rm").1.aggs
        = [("min_C1", ("min", 0, "rm"))] ∧
      ("min", (0 : Int), "all") ∉
        ((GroupBy.min ((GroupBy.min ⟨⟨["C1"], ["int"]⟩, [], [], Option.none⟩
            (ColArg.int 0) "all").1) (ColArg.int 0) "rm").1.aggs).map Prod.snd := by
  refine ⟨by rfl, ?_⟩
  decide

/-- C2 (amended): the builder keys specifications by operation and column
name, not by the full triple: each key occurs at most once, and re-adding a
specification with the same operation and column replaces the stored one —
with a different na-policy only the later na-policy is retained.  Repeating
the `int`-column add with na-policy `na2` after `na1` therefore leaves the
state exactly as a single add with `na2`. -/
theorem claim_C2_amended_same_key_replaces (fr : Frame) (grp : List Int)
    (op : String) (cidx : Int) (na1 na2 : String) (d : Aggs)
    (hnd : (keysOf d).Nodup) :
    addAgg fr grp op (ColArg.int cidx) na2
        (addAgg fr grp op (ColArg.int cidx) na1 d).1
      = addAgg fr grp op (ColArg.int cidx) na2 d ∧
    (keysOf (addAgg fr grp op (ColArg.int cidx) na1 d).1).Nodup := by
  by_cases hn : op = "nrow"
  · subst hn
    show addAggInt fr "nrow" 0 na2 (addAggInt fr "nrow" 0 na1 d).1
          = addAggInt fr "nrow" 0 na2 d ∧
        (keysOf (addAggInt fr "nrow" 0 na1 d).1).Nodup
    exact ⟨addAggInt_replace fr "nrow" 0 na1 na2 d, addAggInt_nodup fr "nrow" 0 na1 d hnd⟩
  · simp only [addAgg, if_neg hn, addAggCore]
    exact ⟨addAggInt_replace fr op cidx na1 na2 d, addAggInt_nodup fr op cidx na1 d hnd⟩

/-- Witness for the amended C2 on a concrete frame and dict. -/
theorem claim_C2_amended_same_key_replaces_witness :
    addAgg ⟨["C1"], ["int"]⟩ [] "min" (ColArg.int 0) "rm"
        (addAgg ⟨["C1"], ["int"]⟩ [] "min" (ColArg.int 0) "all" []).1
      = addAgg ⟨["C1"], ["int"]⟩ [] "min" (ColArg.int 0) "rm" [] ∧
    (keysOf (addAgg ⟨["C1"], ["int"]⟩ [] "min" (ColArg.int 0) "all" []).1).Nodup :=
  claim_C2_amended_same_key_replaces ⟨["C1"], ["int"]⟩ [] "min" 0 "all" "rm" []
    List.nodup_nil

/-- C6: adding the same aggregation twice with identical arguments leaves
the accumulated specification state (and the raised outcome) identical to
adding it once, for every argument shape — the write trace of `_add_agg`
does not depend on the current dict, and replaying it is idempotent as
long as the dict keys are unique (which holds for every reachable
`_aggs`). -/
theorem claim_C6_adding_twice_equals_once (g : GroupBy) (op : String)
    (col : ColArg) (na : String) (hnd : (keysOf g.aggs).Nodup) :
    methodCall (methodCall g op col na).1 op col na = methodCall g op col na := by
  rcases htr : aggTrace g.fr g.grp op col na with ⟨ws, e⟩
  have h1 := addAgg_eq g.fr g.grp op col na g.aggs
  have h2 := addAgg_eq g.fr g.grp op col na (applyWrites ws g.aggs)
  rw [htr] at h1 h2
  simp only [methodCall, h1]
  show ({ g with aggs := (addAgg g.fr g.grp op col na (applyWrites ws g.aggs)).1 },
      (addAgg g.fr g.grp op col na (applyWrites ws g.aggs)).2)
    = ({ g with aggs := applyWrites ws g.aggs }, e)
  rw [h2]
  simp only [applyWrites_idem ws g.aggs hnd]

/-- Witness for C6: `min` over all columns, added twice, on a concrete
two-column frame. -/
theorem claim_C6_adding_twice_equals_once_witness :
    methodCall (methodCall ⟨⟨["C1", "C2"], ["int", "string"]⟩, [0], [], Option.none⟩
        "min" ColArg.none "all").1 "min" ColArg.none "all"
      = methodCall ⟨⟨["C1", "C2"], ["int", "string"]⟩, [0], [], Option.none⟩
        "min" ColArg.none "all" :=
  claim_C6_adding_twice_equals_once
    ⟨⟨["C1", "C2"], ["int", "string"]⟩, [0], [], Option.none⟩
    "min" ColArg.none "all" List.nodup_nil

/-- Resolving a list/tuple `by` argument succeeds when every string element
is a column name, and produces exactly the index-or-unchanged mapping. -/
theorem resolveByList_eq_map (fr : Frame) (l : List ByElem)
    (h : ∀ s, ByElem.str s ∈ l → s ∈ fr.names) :
    resolveByList fr l = some (l.map (fun e => match e with
      | ByElem.str s => ((fr.names.indexOf s : Nat) : Int)
      | ByElem.int i => i)) := by
  induction l with
  | nil => rfl
  | cons e t ih =>
    have ht : ∀ s, ByElem.str s ∈ t → s ∈ fr.names :=
      fun s hs => h s (List.mem_cons_of_mem _ hs)
    cases e with
    | str s =>
      have hs := h s (List.mem_cons_self _ _)
      simp [resolveByList, resolveByElem, (namesIndex_spec fr.names s hs).1, ih ht]
    | int i =>
      simp [resolveByList, resolveByElem, ih ht]

/-- C3: the constructor resolves column names to indices: a string `by`
becomes the singleton of its first index in `fr.names`; in a list or tuple
every string element is replaced by its index and every non-string element
is kept unchanged; any other `by` value is wrapped in a singleton list
unchanged.  (`_aggs` starts empty and `_res` starts as `None`.) -/
theorem claim_C3_constructor_resolves_columns (fr : Frame) :
    (∀ s, s ∈ fr.names →
        groupByInit fr (ByArg.str s)
          = some ⟨fr, [(fr.names.indexOf s : Int)], [], Option.none⟩) ∧
    (∀ l : List ByElem, (∀ s, ByElem.str s ∈ l → s ∈ fr.names) →
        groupByInit fr (ByArg.list l)
            = some ⟨fr, l.map (fun e => match e with
                | ByElem.str s => ((fr.names.indexOf s : Nat) : Int)
                | ByElem.int i => i), [], Option.none⟩ ∧
          groupByInit fr (ByArg.tup l)
            = some ⟨fr, l.map (fun e => match e with
                | ByElem.str s => ((fr.names.indexOf s : Nat) : Int)
                | ByElem.int i => i), [], Option.none⟩) ∧
    (∀ i : Int, groupByInit fr (ByArg.other i) = some ⟨fr, [i], [], Option.none⟩) := by
  refine ⟨?_, ?_, fun i => rfl⟩
  · intro s hs
    simp [groupByInit, (namesIndex_spec fr.names s hs).1]
  · intro l hl
    constructor <;> simp [groupByInit, resolveByList_eq_map fr l hl]

/-- Witness for C3: a two-column frame grouped by `["C2", 0]`. -/
theorem claim_C3_constructor_resolves_columns_witness :
    groupByInit ⟨["C1", "C2"], ["int", "real"]⟩
        (ByArg.list [ByElem.str "C2", ByElem.int 0])
      = some ⟨⟨["C1", "C2"], ["int", "real"]⟩, [1, 0], [], Option.none⟩ :=
  ((claim_C3_constructor_resolves_columns ⟨["C1", "C2"], ["int", "real"]⟩).2.1
    [ByElem.str "C2", ByElem.int 0]
    (by
      intro s hs
      simp only [List.mem_cons, List.not_mem_nil, or_false] at hs
      rcases hs with hs | hs
      · injection hs with h2
        subst h2
        decide
      · cases hs)).1

/-- C4: an aggregation method called with a string `col` stores the
column's first index in `fr.names` (and, since `names[names.index(s)] = s`,
files it under the key `"{op}_{s}"`); called with an int `col` it stores
the index unchanged and files the triple under `"{op}_{fr.names[cidx]}"`
with Python (negative-index) subscripting. -/
theorem claim_C4_column_resolution_and_key (fr : Frame) (grp : List Int)
    (op : String) (na : String) (d : Aggs) (hop : op ≠ "nrow") :
    (∀ s, s ∈ fr.names →
        addAgg fr grp op (ColArg.str s) na d =
          (dictSet d (op ++ "_" ++ s) (op, (fr.names.indexOf s : Int), na),
            Option.none)) ∧
    (∀ (cidx : Int) (cname : String), pyGet fr.names cidx = some cname →
        addAgg fr grp op (ColArg.int cidx) na d =
          (dictSet d (op ++ "_" ++ cname) (op, cidx, na), Option.none)) := by
  constructor
  · intro s hs
    have hspec := namesIndex_spec fr.names s hs
    simp only [addAgg, if_neg hop, addAggCore, hspec.1, addAggInt, pyGet_natCast,
      hspec.2]
  · intro cidx cname hpg
    simp only [addAgg, if_neg hop, addAggCore, addAggInt, hpg]

/-- Witness for C4: `sum` over the named column `"C2"` of a two-column
frame. -/
theorem claim_C4_column_resolution_and_key_witness :
    addAgg ⟨["C1", "C2"], ["int", "real"]⟩ [] "sum" (ColArg.str "C2") "all" []
      = (dictSet [] ("sum" ++ "_" ++ "C2")
          ("sum", ((["C1", "C2"].indexOf "C2" : Nat) : Int), "all"), Option.none) :=
  (claim_C4_column_resolution_and_key ⟨["C1", "C2"], ["int", "real"]⟩ [] "sum" "all" []
    (by decide)).1 "C2" (by decide)

/-- The `col is None` loop over in-range indices equals replaying one write
per non-grouped index, and never raises. -/
theorem addAggRange_full (fr : Frame) (grp : List Int) (op : String) (na : String)
    (hop : op ≠ "nrow") (l : List Nat) (d : Aggs)
    (hb : ∀ i ∈ l, i < fr.names.length) :
    addAggRange fr grp op na l d =
      (applyWrites ((l.filter (fun i : Nat => (i : Int) ∉ grp)).map
          (fun i => (op ++ "_" ++ fr.names.getD i "", (op, (i : Int), na)))) d,
        Option.none) := by
  induction l generalizing d with
  | nil => rfl
  | cons i is ih =>
    have hi : i < fr.names.length := hb i (List.mem_cons_self _ _)
    have hbs : ∀ j ∈ is, j < fr.names.length :=
      fun j hj => hb j (List.mem_cons_of_mem _ hj)
    by_cases hg : (i : Int) ∈ grp
    · simp only [addAggRange, if_pos hg, List.filter_cons]
      rw [if_neg (by simpa using hg)]
      exact ih d hbs
    · simp only [addAggRange, if_neg hg, if_neg hop, List.filter_cons]
      rw [if_pos (by simpa using hg)]
      simp only [addAggInt, pyGet_natCast, get?_eq_getD fr.names i hi, List.map_cons,
        applyWrites_cons]
      exact ih _ hbs

/-- C8: for every operation other than `"nrow"` (the `count` aggregation),
calling with `col=None` adds the specification `[op, i, na]` for every
column index `i < ncol` with `i` not among the grouping indices — with no
filtering whatsoever on the column types, which the builder never reads. -/
theorem claim_C8_default_expands_all_other_columns (fr : Frame)
    (grp : List Int) (op na : String) (d : Aggs) (hop : op ≠ "nrow") :
    addAgg fr grp op ColArg.none na d =
      (applyWrites (((List.range fr.ncol).filter (fun i : Nat => (i : Int) ∉ grp)).map
          (fun i => (op ++ "_" ++ fr.names.getD i "", (op, (i : Int), na)))) d,
        Option.none) ∧
    ∀ i, i < fr.ncol → (i : Int) ∉ grp →
      (op ++ "_" ++ fr.names.getD i "", (op, (i : Int), na)) ∈
        ((List.range fr.ncol).filter (fun i : Nat => (i : Int) ∉ grp)).map
          (fun i => (op ++ "_" ++ fr.names.getD i "", (op, (i : Int), na))) := by
  constructor
  · rw [addAgg, if_neg hop]
    show addAggRange fr grp op na (List.range fr.ncol) d = _
    exact addAggRange_full fr grp op na hop (List.range fr.ncol) d
      (fun i hi => List.mem_range.mp hi)
  · intro i hilt hig
    exact List.mem_map_of_mem _
      (List.mem_filter.mpr ⟨List.mem_range.mpr hilt, by simpa using hig⟩)

/-- Witness for C8: `min` with `col=None` on a frame whose second column is
a string column, grouped on column 0 — the string column is included. -/
theorem claim_C8_default_expands_all_other_columns_witness :
    addAgg ⟨["C1", "C2"], ["int", "string"]⟩ [0] "min" ColArg.none "all" []
      = (applyWrites (((List.range (Frame.ncol ⟨["C1", "C2"], ["int", "string"]⟩)).filter
            (fun i : Nat => (i : Int) ∉ ([0] : List Int))).map
          (fun i => ("min" ++ "_" ++ ["C1", "C2"].getD i "", ("min", (i : Int), "all"))))
          [], Option.none) :=
  (claim_C8_default_expands_all_other_columns ⟨["C1", "C2"], ["int", "string"]⟩
    [0] "min" "all" [] (by decide)).1
